import Mathlib

/-!
Shallow embedding of the tamagoyaki candlestick pipeline (src/tamagoyaki/main.py,
src/tamagoyaki/database.py).

The pipeline has two stages:

* `update` (main.py, lines 31-134): per day, skip the day when a stored candle
  with `datetime == date` (midnight) exists, otherwise download the day's trades
  and aggregate them into 1-second candles with the pandas pipeline
  `floor("1s")` + `groupby("datetime").agg(first/max/min/last/sum)`, then insert.
* `generate` (main.py, lines 137-202): query the stored candles with
  `datetime >= bdt` and `datetime <= edt`, resample them with
  `df.resample(f"{interval}s").agg(...)`, drop the all-NaN rows of empty target
  buckets, and write the result to a CSV file.

Timestamps are modelled as exact numbers: a trade timestamp is a rational number
of seconds since the epoch (the source CSV has sub-second precision), a candle
timestamp is an integer number of seconds (the `datetime` column is floored to
whole seconds before candles are built).  Prices and sizes are rationals.
-/

namespace Tamagoyaki

/-- Trade side as found in the bybit CSV `side` column. -/
inductive Side where
  | Buy : Side
  | Sell : Side
deriving DecidableEq

/-- One row of the downloaded trades CSV (main.py line 86 keeps the columns
`timestamp`, `side`, `size`, `price`). -/
structure Trade where
  timestamp : ℚ
  side : Side
  size : ℚ
  price : ℚ
deriving DecidableEq

/-- One row of the `candle` table (database.py lines 7-22), without the
bookkeeping columns `exchange`/`symbol` which live in `StoredCandle`.
`open` is a Lean keyword, hence the field name `open_`. -/
structure Candle where
  ts : ℤ
  open_ : ℚ
  high : ℚ
  low : ℚ
  close : ℚ
  volume : ℚ
  buy_volume : ℚ
  sell_volume : ℚ
deriving DecidableEq

/-- The 1-second bucket of a trade: `pd.to_datetime(...).dt.floor("1s")`
(main.py lines 87 and 90) truncates the sub-second part of the timestamp. -/
def tradeBucket (t : Trade) : ℤ := ⌊t.timestamp⌋

/-- The `buySize` column: `np.where(df["side"] == "Buy", df["size"], 0)`
(main.py line 88). -/
def buySize (t : Trade) : ℚ := if t.side = Side.Buy then t.size else 0

/-- The `sellSize` column: `np.where(df["side"] == "Sell", df["size"], 0)`
(main.py line 89). -/
def sellSize (t : Trade) : ℚ := if t.side = Side.Sell then t.size else 0

/-- Insert a key into a sorted duplicate-free list of keys, keeping it sorted
and duplicate-free.  Used to model the sorted group keys that
`groupby`/`resample` produce. -/
def insertKey (b : ℤ) : List ℤ → List ℤ
  | [] => [b]
  | a :: r => if b < a then b :: a :: r else if b = a then a :: r else a :: insertKey b r

/-- The ascending list of distinct keys of a list: pandas `groupby` (main.py
line 93) and `resample` (line 182) emit one group per distinct key, in
ascending key order. -/
def sortedKeys (l : List ℤ) : List ℤ := l.foldr insertKey []

/-- The trades of one 1-second group, in source row order. -/
def tradesIn (b : ℤ) (trades : List Trade) : List Trade :=
  trades.filter (fun t => tradeBucket t == b)

/-- The candle built from one non-empty `groupby` group (main.py lines 93-100):
`price: first/max/min/last`, `size: sum`, `buySize: sum`, `sellSize: sum`. -/
def mkCandle (b : ℤ) : List Trade → Option Candle
  | [] => none
  | l@(t :: r) => some
      { ts := b
        open_ := t.price
        high := r.foldl (fun a u => max a u.price) t.price
        low := r.foldl (fun a u => min a u.price) t.price
        close := (List.getLastD r t).price
        volume := (l.map Trade.size).sum
        buy_volume := (l.map buySize).sum
        sell_volume := (l.map sellSize).sum }

/-- The ascending list of non-empty 1-second buckets of a trade list. -/
def buckets (trades : List Trade) : List ℤ := sortedKeys (trades.map tradeBucket)

/-- The tick aggregator (main.py lines 86-130): group the trades by their
1-second bucket and aggregate each group into a candle, in ascending bucket
order. -/
def aggregate (trades : List Trade) : List Candle :=
  (buckets trades).filterMap (fun b => mkCandle b (tradesIn b trades))

/-- Truncate `s` to the multiple of `n` at or below it: `s - (s mod n)`. -/
def bucketZ (s n : ℤ) : ℤ := s - s % n

/-- The target bucket of a candle under `df.resample(f"{interval}s")`
(main.py line 182): bins of width `n` seconds, anchored at origin `o`
(pandas uses `origin="start_day"`, the midnight of the first row's day). -/
def cBucket (o n : ℤ) (c : Candle) : ℤ := o + bucketZ (c.ts - o) n

/-- The source candles of one target bucket, in source row order. -/
def candlesIn (o n b : ℤ) (cs : List Candle) : List Candle :=
  cs.filter (fun c => cBucket o n c == b)

/-- The candle built from one non-empty resample group (main.py lines 182-192):
`open: first`, `high: max`, `low: min`, `close: last`, sums for the volumes.
An empty group is dropped by `df.dropna()` (line 195), hence `none`. -/
def mkRCandle (b : ℤ) : List Candle → Option Candle
  | [] => none
  | l@(c :: r) => some
      { ts := b
        open_ := c.open_
        high := r.foldl (fun a u => max a u.high) c.high
        low := r.foldl (fun a u => min a u.low) c.low
        close := (List.getLastD r c).close
        volume := (l.map Candle.volume).sum
        buy_volume := (l.map Candle.buy_volume).sum
        sell_volume := (l.map Candle.sell_volume).sum }

/-- The ascending list of non-empty target buckets of a candle list. -/
def rBuckets (o n : ℤ) (cs : List Candle) : List ℤ :=
  sortedKeys (cs.map (cBucket o n))

/-- The candle resampler (main.py lines 180-195): group the source candles by
their `n`-second bucket anchored at `o`, aggregate each non-empty group, and
drop empty groups, in ascending bucket order. -/
def resample (o n : ℤ) (cs : List Candle) : List Candle :=
  (rBuckets o n cs).filterMap (fun b => mkRCandle b (candlesIn o n b cs))

/-- A row of the `candle` table together with its `exchange`/`symbol` columns
(database.py lines 13-15, filled in at main.py lines 118-120). -/
structure StoredCandle where
  exchange : String
  symbol : String
  candle : Candle
deriving DecidableEq

/-- Seconds in one day; `date_range` in `update` steps in whole days. -/
def secondsPerDay : ℤ := 86400

/-- The existence check of `update` (main.py lines 59-64): it counts stored
candles with `Candle.datetime == date`, where `date` is the midnight of the
day being processed. -/
def dayExists (store : List StoredCandle) (symbol : String) (dayMid : ℤ) : Bool :=
  store.any (fun s => s.exchange == "bybit" && s.symbol == symbol && s.candle.ts == dayMid)

/-- One day of `update`'s loop on the successful-download path (main.py lines
56-134): skip the day when `dayExists`, otherwise aggregate the day's trades
and append the resulting candles to the store.  `dayMid` is the midnight
timestamp of the day and `trades` the parsed rows of the downloaded CSV. -/
def updateDay (store : List StoredCandle) (symbol : String) (dayMid : ℤ)
    (trades : List Trade) : List StoredCandle :=
  if dayExists store symbol dayMid then store
  else store ++ (aggregate trades).map (fun c => ⟨"bybit", symbol, c⟩)

/-- The range query of `generate` (main.py lines 163-167): exchange and symbol
must match and `bdt <= datetime <= edt`, where `bdt`/`edt` are the midnights of
the begin and end dates. -/
def queryRange (store : List StoredCandle) (symbol : String) (bdt edt : ℤ) :
    List StoredCandle :=
  store.filter (fun s => s.exchange == "bybit" && s.symbol == symbol
    && decide (bdt ≤ s.candle.ts) && decide (s.candle.ts ≤ edt))

/-- Midnight of the day containing `t`: the `origin="start_day"` anchor that
pandas `resample` uses by default. -/
def startDay (t : ℤ) : ℤ := bucketZ t secondsPerDay

/-- `df.resample(f"{interval}s").agg(...)` as called at main.py line 182: the
bins are anchored at the midnight of the first row's day; an empty frame
resamples to an empty frame. -/
def resampleRun (n : ℤ) (cs : List Candle) : List Candle :=
  match cs with
  | [] => []
  | c :: _ => resample (startDay c.ts) n cs

/-- Observable steps of one `generate` call, in program order. -/
inductive Step where
  | rangeRead : Step
  | resampleDone : Step
  | fileWritten : Step
deriving DecidableEq

/-- The `generate` command (main.py lines 137-202) after date parsing: it
always executes the range query first (`pd.read_sql`, line 169).  The
`resample` call (line 182) raises a `ValueError` for a non-positive interval,
but only when the frame is non-empty: pandas bins the index through
`TimeGrouper._get_time_bins`, which short-circuits on an empty index and
returns empty bins before any `date_range` construction — the only place a
zero or negative frequency raises.  So for `n <= 0` on a non-empty queried
range the call dies after the read and before any output, while on an empty
queried range it completes and writes a header-only CSV; for `n > 0` it
resamples and writes the CSV.  Returns the trace of performed steps and the
outcome. -/
def generateRun (store : List StoredCandle) (symbol : String) (bdt edt n : ℤ) :
    List Step × Except String (List Candle) :=
  let src := (queryRange store symbol bdt edt).map StoredCandle.candle
  if n ≤ 0 ∧ src ≠ [] then
    ([Step.rangeRead], Except.error "ValueError: invalid frequency")
  else
    ([Step.rangeRead, Step.resampleDone, Step.fileWritten],
      Except.ok (resampleRun n src))

/-! ### Sorted key lists -/

theorem mem_insertKey {a b : ℤ} {l : List ℤ} : a ∈ insertKey b l ↔ a = b ∨ a ∈ l := by
  induction l with
  | nil => simp [insertKey]
  | cons x r ih =>
    by_cases h1 : b < x
    · simp [insertKey, h1, List.mem_cons]
    · by_cases h2 : b = x
      · subst h2
        rw [insertKey, if_neg h1, if_pos rfl, List.mem_cons]
        tauto
      · simp only [insertKey, if_neg h1, if_neg h2, List.mem_cons, ih]
        tauto

theorem sorted_insertKey {b : ℤ} {l : List ℤ} (h : l.Sorted (· < ·)) :
    (insertKey b l).Sorted (· < ·) := by
  induction l with
  | nil => simp [insertKey]
  | cons x r ih =>
    rw [List.sorted_cons] at h
    obtain ⟨hx, hr⟩ := h
    by_cases h1 : b < x
    · rw [insertKey, if_pos h1, List.sorted_cons]
      refine ⟨?_, List.sorted_cons.2 ⟨hx, hr⟩⟩
      intro y hy
      rcases List.mem_cons.1 hy with rfl | hy'
      · exact h1
      · exact h1.trans (hx y hy')
    · by_cases h2 : b = x
      · rw [insertKey, if_neg h1, if_pos h2]
        exact List.sorted_cons.2 ⟨hx, hr⟩
      · have hxb : x < b := by omega
        rw [insertKey, if_neg h1, if_neg h2, List.sorted_cons]
        refine ⟨?_, ih hr⟩
        intro y hy
        rcases mem_insertKey.1 hy with rfl | hy'
        · exact hxb
        · exact hx y hy'

theorem sortedKeys_cons (k : ℤ) (l : List ℤ) :
    sortedKeys (k :: l) = insertKey k (sortedKeys l) := rfl

theorem sortedKeys_sorted (l : List ℤ) : (sortedKeys l).Sorted (· < ·) := by
  induction l with
  | nil => exact List.sorted_nil
  | cons k r ih => exact sorted_insertKey ih

theorem mem_sortedKeys {a : ℤ} {l : List ℤ} : a ∈ sortedKeys l ↔ a ∈ l := by
  induction l with
  | nil => simp [sortedKeys]
  | cons k r ih =>
    rw [sortedKeys_cons, mem_insertKey, ih, List.mem_cons]

theorem sorted_lt_eq_of_mem_iff {l₁ l₂ : List ℤ} (h₁ : l₁.Sorted (· < ·))
    (h₂ : l₂.Sorted (· < ·)) (h : ∀ a, a ∈ l₁ ↔ a ∈ l₂) : l₁ = l₂ :=
  List.eq_of_perm_of_sorted ((List.perm_ext_iff_of_nodup h₁.nodup h₂.nodup).2 h) h₁ h₂

theorem sortedKeys_eq_of_mem_iff {l l' : List ℤ} (h : ∀ a, a ∈ l ↔ a ∈ l') :
    sortedKeys l = sortedKeys l' :=
  sorted_lt_eq_of_mem_iff (sortedKeys_sorted l) (sortedKeys_sorted l')
    (fun a => by rw [mem_sortedKeys, mem_sortedKeys]; exact h a)

/-! ### Folded maxima and minima -/

theorem init_le_foldl_max {α : Type*} (f : α → ℚ) (l : List α) (a0 : ℚ) :
    a0 ≤ l.foldl (fun a u => max a (f u)) a0 := by
  induction l generalizing a0 with
  | nil => exact le_refl a0
  | cons x r ih =>
    rw [List.foldl_cons]
    exact le_trans (le_max_left _ _) (ih _)

theorem mem_le_foldl_max {α : Type*} (f : α → ℚ) {l : List α} (a0 : ℚ) {x : α}
    (hx : x ∈ l) : f x ≤ l.foldl (fun a u => max a (f u)) a0 := by
  induction l generalizing a0 with
  | nil => cases hx
  | cons y r ih =>
    rw [List.foldl_cons]
    rcases List.mem_cons.1 hx with rfl | hx'
    · exact le_trans (le_max_right _ _) (init_le_foldl_max f r _)
    · exact ih _ hx'

theorem foldl_max_mem {α : Type*} (f : α → ℚ) (l : List α) (a0 : ℚ) :
    l.foldl (fun a u => max a (f u)) a0 = a0 ∨
      ∃ x ∈ l, l.foldl (fun a u => max a (f u)) a0 = f x := by
  induction l generalizing a0 with
  | nil => exact Or.inl rfl
  | cons y r ih =>
    rw [List.foldl_cons]
    rcases ih (max a0 (f y)) with h | ⟨x, hx, he⟩
    · rcases le_total (f y) a0 with hle | hle
      · exact Or.inl (by rw [h, max_eq_left hle])
      · exact Or.inr ⟨y, List.mem_cons_self y r, by rw [h, max_eq_right hle]⟩
    · exact Or.inr ⟨x, List.mem_cons_of_mem _ hx, he⟩

theorem foldl_min_le_init {α : Type*} (f : α → ℚ) (l : List α) (a0 : ℚ) :
    l.foldl (fun a u => min a (f u)) a0 ≤ a0 := by
  induction l generalizing a0 with
  | nil => exact le_refl a0
  | cons x r ih =>
    rw [List.foldl_cons]
    exact le_trans (ih _) (min_le_left _ _)

theorem foldl_min_le_mem {α : Type*} (f : α → ℚ) {l : List α} (a0 : ℚ) {x : α}
    (hx : x ∈ l) : l.foldl (fun a u => min a (f u)) a0 ≤ f x := by
  induction l generalizing a0 with
  | nil => cases hx
  | cons y r ih =>
    rw [List.foldl_cons]
    rcases List.mem_cons.1 hx with rfl | hx'
    · exact le_trans (foldl_min_le_init f r _) (min_le_right _ _)
    · exact ih _ hx'

theorem foldl_min_mem {α : Type*} (f : α → ℚ) (l : List α) (a0 : ℚ) :
    l.foldl (fun a u => min a (f u)) a0 = a0 ∨
      ∃ x ∈ l, l.foldl (fun a u => min a (f u)) a0 = f x := by
  induction l generalizing a0 with
  | nil => exact Or.inl rfl
  | cons y r ih =>
    rw [List.foldl_cons]
    rcases ih (min a0 (f y)) with h | ⟨x, hx, he⟩
    · rcases le_total a0 (f y) with hle | hle
      · exact Or.inl (by rw [h, min_eq_left hle])
      · exact Or.inr ⟨y, List.mem_cons_self y r, by rw [h, min_eq_right hle]⟩
    · exact Or.inr ⟨x, List.mem_cons_of_mem _ hx, he⟩

/-! ### Group extraction through filterMap -/

theorem map_key_filterMap {β : Type*} (f : ℤ → Option β) (key : β → ℤ) (l : List ℤ)
    (h : ∀ b ∈ l, ∃ c, f b = some c ∧ key c = b) :
    (l.filterMap f).map key = l := by
  induction l with
  | nil => rfl
  | cons b r ih =>
    obtain ⟨c, hc, hk⟩ := h b (List.mem_cons_self b r)
    rw [List.filterMap_cons, hc, List.map_cons, hk,
      ih (fun b' hb' => h b' (List.mem_cons_of_mem _ hb'))]

/-! ### The aggregated candle of one group -/

theorem getLastD_mem {α : Type*} (r : List α) (t : α) : List.getLastD r t ∈ t :: r := by
  induction r generalizing t with
  | nil => exact List.mem_singleton.2 rfl
  | cons u r' ih =>
    rw [List.getLastD_cons]
    exact List.mem_cons_of_mem t (ih u)

theorem tradesIn_ne_nil {trades : List Trade} {b : ℤ} (h : ∃ t ∈ trades, tradeBucket t = b) :
    tradesIn b trades ≠ [] := by
  obtain ⟨t, ht, hb⟩ := h
  have hmem : t ∈ tradesIn b trades := List.mem_filter.2 ⟨ht, by simp [hb]⟩
  intro he
  rw [he] at hmem
  cases hmem

theorem mkCandle_ts {b : ℤ} {l : List Trade} {c : Candle} (h : mkCandle b l = some c) :
    c.ts = b := by
  cases l with
  | nil => cases h
  | cons t r =>
    simp only [mkCandle, Option.some.injEq] at h
    subst h
    rfl

theorem mkCandle_of_ne_nil (b : ℤ) {l : List Trade} (h : l ≠ []) :
    ∃ c, mkCandle b l = some c ∧ c.ts = b := by
  cases l with
  | nil => exact absurd rfl h
  | cons t r => exact ⟨_, rfl, rfl⟩

theorem mkCandle_open_ {b : ℤ} {l : List Trade} {c : Candle} (h : mkCandle b l = some c) :
    (l.map Trade.price).head? = some c.open_ := by
  cases l with
  | nil => cases h
  | cons t r =>
    simp only [mkCandle, Option.some.injEq] at h
    subst h
    rfl

theorem mkCandle_open_mem {b : ℤ} {l : List Trade} {c : Candle} (h : mkCandle b l = some c) :
    c.open_ ∈ l.map Trade.price := by
  cases l with
  | nil => cases h
  | cons t r =>
    simp only [mkCandle, Option.some.injEq] at h
    subst h
    exact List.mem_map.2 ⟨t, List.mem_cons_self t r, rfl⟩

theorem mkCandle_close {b : ℤ} {l : List Trade} {c : Candle} (h : mkCandle b l = some c) :
    (l.map Trade.price).getLast? = some c.close := by
  cases l with
  | nil => cases h
  | cons t r =>
    simp only [mkCandle, Option.some.injEq] at h
    subst h
    rw [List.getLast?_map, List.getLast?_cons]
    simp [List.getLastD_eq_getLast?]

theorem mkCandle_close_mem {b : ℤ} {l : List Trade} {c : Candle} (h : mkCandle b l = some c) :
    c.close ∈ l.map Trade.price := by
  cases l with
  | nil => cases h
  | cons t r =>
    simp only [mkCandle, Option.some.injEq] at h
    subst h
    exact List.mem_map.2 ⟨List.getLastD r t, getLastD_mem r t, rfl⟩

theorem mkCandle_high_ub {b : ℤ} {l : List Trade} {c : Candle} (h : mkCandle b l = some c) :
    ∀ t' ∈ l, t'.price ≤ c.high := by
  cases l with
  | nil => cases h
  | cons t r =>
    simp only [mkCandle, Option.some.injEq] at h
    subst h
    intro t' ht'
    rcases List.mem_cons.1 ht' with rfl | ht''
    · exact init_le_foldl_max Trade.price r t'.price
    · exact mem_le_foldl_max Trade.price t.price ht''

theorem mkCandle_high_mem {b : ℤ} {l : List Trade} {c : Candle} (h : mkCandle b l = some c) :
    c.high ∈ l.map Trade.price := by
  cases l with
  | nil => cases h
  | cons t r =>
    simp only [mkCandle, Option.some.injEq] at h
    subst h
    rcases foldl_max_mem Trade.price r t.price with he | ⟨x, hx, he⟩
    · exact List.mem_map.2 ⟨t, List.mem_cons_self t r, he.symm⟩
    · exact List.mem_map.2 ⟨x, List.mem_cons_of_mem t hx, he.symm⟩

theorem mkCandle_low_lb {b : ℤ} {l : List Trade} {c : Candle} (h : mkCandle b l = some c) :
    ∀ t' ∈ l, c.low ≤ t'.price := by
  cases l with
  | nil => cases h
  | cons t r =>
    simp only [mkCandle, Option.some.injEq] at h
    subst h
    intro t' ht'
    rcases List.mem_cons.1 ht' with rfl | ht''
    · exact foldl_min_le_init Trade.price r t'.price
    · exact foldl_min_le_mem Trade.price t.price ht''

theorem mkCandle_low_mem {b : ℤ} {l : List Trade} {c : Candle} (h : mkCandle b l = some c) :
    c.low ∈ l.map Trade.price := by
  cases l with
  | nil => cases h
  | cons t r =>
    simp only [mkCandle, Option.some.injEq] at h
    subst h
    rcases foldl_min_mem Trade.price r t.price with he | ⟨x, hx, he⟩
    · exact List.mem_map.2 ⟨t, List.mem_cons_self t r, he.symm⟩
    · exact List.mem_map.2 ⟨x, List.mem_cons_of_mem t hx, he.symm⟩

theorem mkCandle_volume {b : ℤ} {l : List Trade} {c : Candle} (h : mkCandle b l = some c) :
    c.volume = (l.map Trade.size).sum := by
  cases l with
  | nil => cases h
  | cons t r =>
    simp only [mkCandle, Option.some.injEq] at h
    subst h
    rfl

theorem mkCandle_buy {b : ℤ} {l : List Trade} {c : Candle} (h : mkCandle b l = some c) :
    c.buy_volume = (l.map buySize).sum := by
  cases l with
  | nil => cases h
  | cons t r =>
    simp only [mkCandle, Option.some.injEq] at h
    subst h
    rfl

theorem mkCandle_sell {b : ℤ} {l : List Trade} {c : Candle} (h : mkCandle b l = some c) :
    c.sell_volume = (l.map sellSize).sum := by
  cases l with
  | nil => cases h
  | cons t r =>
    simp only [mkCandle, Option.some.injEq] at h
    subst h
    rfl

theorem sum_buySize_eq_filter (l : List Trade) :
    (l.map buySize).sum = ((l.filter fun t => t.side == Side.Buy).map Trade.size).sum := by
  induction l with
  | nil => rfl
  | cons t r ih =>
    cases hs : t.side
    · simp [List.filter_cons, hs, buySize, ih]
    · simp [List.filter_cons, hs, buySize, ih]

theorem sum_sellSize_eq_filter (l : List Trade) :
    (l.map sellSize).sum = ((l.filter fun t => t.side == Side.Sell).map Trade.size).sum := by
  induction l with
  | nil => rfl
  | cons t r ih =>
    cases hs : t.side
    · simp [List.filter_cons, hs, sellSize, ih]
    · simp [List.filter_cons, hs, sellSize, ih]

theorem sum_size_split (l : List Trade) :
    (l.map Trade.size).sum = (l.map buySize).sum + (l.map sellSize).sum := by
  induction l with
  | nil => simp
  | cons t r ih =>
    simp only [List.map_cons, List.sum_cons, ih]
    cases hs : t.side <;> simp [buySize, sellSize, hs] <;> ring

/-! ### Aggregate structure -/

theorem mem_buckets {trades : List Trade} {b : ℤ} :
    b ∈ buckets trades ↔ ∃ t ∈ trades, tradeBucket t = b := by
  rw [buckets, mem_sortedKeys]
  exact List.mem_map

theorem aggregate_map_ts (trades : List Trade) :
    (aggregate trades).map Candle.ts = buckets trades := by
  apply map_key_filterMap
  intro b hb
  exact mkCandle_of_ne_nil b (tradesIn_ne_nil (mem_buckets.1 hb))

theorem mem_aggregate {trades : List Trade} {c : Candle} :
    c ∈ aggregate trades ↔
      (∃ t ∈ trades, tradeBucket t = c.ts) ∧
        mkCandle c.ts (tradesIn c.ts trades) = some c := by
  constructor
  · intro h
    obtain ⟨b, hb, hsome⟩ := List.mem_filterMap.1 h
    have hts := mkCandle_ts hsome
    subst hts
    exact ⟨mem_buckets.1 hb, hsome⟩
  · rintro ⟨hb, hsome⟩
    exact List.mem_filterMap.2 ⟨c.ts, mem_buckets.2 hb, hsome⟩

/-! ### Claims about the tick aggregator -/

/-- C1: for every trade sequence, the tick aggregator emits exactly one candle
per non-empty 1-second bucket (the candle timestamps are exactly the non-empty
buckets, without duplicates), in ascending timestamp order, and each candle has
open = first trade price, close = last trade price, high = maximum price,
low = minimum price, volume = sum of sizes, and buy/sell volume = sum of sizes
of the Buy/Sell trades of its bucket. -/
theorem aggregate_groupby_spec (trades : List Trade) :
    ((aggregate trades).map Candle.ts).Sorted (· < ·) ∧
    (∀ b : ℤ, b ∈ (aggregate trades).map Candle.ts ↔ ∃ t ∈ trades, tradeBucket t = b) ∧
    (∀ c ∈ aggregate trades,
      ((tradesIn c.ts trades).map Trade.price).head? = some c.open_ ∧
      ((tradesIn c.ts trades).map Trade.price).getLast? = some c.close ∧
      (∀ t ∈ tradesIn c.ts trades, t.price ≤ c.high) ∧
      c.high ∈ (tradesIn c.ts trades).map Trade.price ∧
      (∀ t ∈ tradesIn c.ts trades, c.low ≤ t.price) ∧
      c.low ∈ (tradesIn c.ts trades).map Trade.price ∧
      c.volume = ((tradesIn c.ts trades).map Trade.size).sum ∧
      c.buy_volume = (((tradesIn c.ts trades).filter fun t => t.side == Side.Buy).map Trade.size).sum ∧
      c.sell_volume = (((tradesIn c.ts trades).filter fun t => t.side == Side.Sell).map Trade.size).sum) := by
  refine ⟨?_, fun b => ?_, fun c hc => ?_⟩
  · rw [aggregate_map_ts]
    exact sortedKeys_sorted _
  · rw [aggregate_map_ts]
    exact mem_buckets
  · obtain ⟨hb, hsome⟩ := mem_aggregate.1 hc
    exact ⟨mkCandle_open_ hsome, mkCandle_close hsome, mkCandle_high_ub hsome,
      mkCandle_high_mem hsome, mkCandle_low_lb hsome, mkCandle_low_mem hsome,
      mkCandle_volume hsome,
      by rw [mkCandle_buy hsome, sum_buySize_eq_filter],
      by rw [mkCandle_sell hsome, sum_sellSize_eq_filter]⟩

/-- Concrete scenario 1 of the spec: three trades, the first two in bucket 0
and the third in bucket 1. -/
def exTrades : List Trade :=
  [⟨0, Side.Buy, 1, 100⟩, ⟨1/2, Side.Sell, 2, 101⟩, ⟨6/5, Side.Buy, 1, 102⟩]

/-- The bucket-0 candle of `exTrades`. -/
def exCandle0 : Candle := ⟨0, 100, 101, 100, 101, 3, 1, 2⟩

theorem aggregate_groupby_spec_witness :
    exCandle0 ∈ aggregate exTrades ∧
      ((tradesIn exCandle0.ts exTrades).map Trade.price).head? = some exCandle0.open_ ∧
      ((tradesIn exCandle0.ts exTrades).map Trade.price).getLast? = some exCandle0.close ∧
      exCandle0.high ∈ (tradesIn exCandle0.ts exTrades).map Trade.price ∧
      exCandle0.low ∈ (tradesIn exCandle0.ts exTrades).map Trade.price ∧
      exCandle0.volume = ((tradesIn exCandle0.ts exTrades).map Trade.size).sum := by
  have hmem : exCandle0 ∈ aggregate exTrades := by
    norm_num [aggregate, buckets, sortedKeys, insertKey, tradesIn, mkCandle, tradeBucket,
      exTrades, exCandle0, buySize, sellSize, List.filter_cons, List.filterMap_cons]
    decide
  have h := (aggregate_groupby_spec exTrades).2.2 exCandle0 hmem
  exact ⟨hmem, h.1, h.2.1, h.2.2.2.1, h.2.2.2.2.2.1, h.2.2.2.2.2.2.1⟩

/-- C3: every candle emitted by the tick aggregator satisfies
volume = buy_volume + sell_volume exactly, with buy_volume the sum of sizes of
the Buy trades of its bucket and sell_volume the sum over the Sell trades. -/
theorem candle_volume_split (trades : List Trade) :
    ∀ c ∈ aggregate trades,
      c.volume = c.buy_volume + c.sell_volume ∧
      c.buy_volume = (((tradesIn c.ts trades).filter fun t => t.side == Side.Buy).map Trade.size).sum ∧
      c.sell_volume = (((tradesIn c.ts trades).filter fun t => t.side == Side.Sell).map Trade.size).sum := by
  intro c hc
  obtain ⟨_, hsome⟩ := mem_aggregate.1 hc
  refine ⟨?_, ?_, ?_⟩
  · rw [mkCandle_volume hsome, mkCandle_buy hsome, mkCandle_sell hsome, sum_size_split]
  · rw [mkCandle_buy hsome, sum_buySize_eq_filter]
  · rw [mkCandle_sell hsome, sum_sellSize_eq_filter]

theorem candle_volume_split_witness :
    exCandle0 ∈ aggregate exTrades ∧
      exCandle0.volume = exCandle0.buy_volume + exCandle0.sell_volume := by
  have hmem : exCandle0 ∈ aggregate exTrades := by
    norm_num [aggregate, buckets, sortedKeys, insertKey, tradesIn, mkCandle, tradeBucket,
      exTrades, exCandle0, buySize, sellSize, List.filter_cons, List.filterMap_cons]
    decide
  exact ⟨hmem, (candle_volume_split exTrades exCandle0 hmem).1⟩

/-- C4: every candle emitted by the tick aggregator satisfies
low ≤ open ≤ high and low ≤ close ≤ high. -/
theorem candle_ohlc_bounds (trades : List Trade) :
    ∀ c ∈ aggregate trades,
      c.low ≤ c.open_ ∧ c.open_ ≤ c.high ∧ c.low ≤ c.close ∧ c.close ≤ c.high := by
  intro c hc
  obtain ⟨_, hsome⟩ := mem_aggregate.1 hc
  obtain ⟨to', hto, hto'⟩ := List.mem_map.1 (mkCandle_open_mem hsome)
  obtain ⟨tc, htc, htc'⟩ := List.mem_map.1 (mkCandle_close_mem hsome)
  refine ⟨?_, ?_, ?_, ?_⟩
  · rw [← hto']
    exact mkCandle_low_lb hsome to' hto
  · rw [← hto']
    exact mkCandle_high_ub hsome to' hto
  · rw [← htc']
    exact mkCandle_low_lb hsome tc htc
  · rw [← htc']
    exact mkCandle_high_ub hsome tc htc

theorem candle_ohlc_bounds_witness :
    exCandle0 ∈ aggregate exTrades ∧
      exCandle0.low ≤ exCandle0.open_ ∧ exCandle0.open_ ≤ exCandle0.high ∧
      exCandle0.low ≤ exCandle0.close ∧ exCandle0.close ≤ exCandle0.high := by
  have hmem : exCandle0 ∈ aggregate exTrades := by
    norm_num [aggregate, buckets, sortedKeys, insertKey, tradesIn, mkCandle, tradeBucket,
      exTrades, exCandle0, buySize, sellSize, List.filter_cons, List.filterMap_cons]
    decide
  exact ⟨hmem, candle_ohlc_bounds exTrades exCandle0 hmem⟩

/-! ### Resample structure -/

theorem candlesIn_ne_nil {o n b : ℤ} {cs : List Candle} (h : ∃ c ∈ cs, cBucket o n c = b) :
    candlesIn o n b cs ≠ [] := by
  obtain ⟨c, hc, hb⟩ := h
  have hmem : c ∈ candlesIn o n b cs := List.mem_filter.2 ⟨hc, by simp [hb]⟩
  intro he
  rw [he] at hmem
  cases hmem

theorem mkRCandle_ts {b : ℤ} {l : List Candle} {c : Candle} (h : mkRCandle b l = some c) :
    c.ts = b := by
  cases l with
  | nil => cases h
  | cons u r =>
    simp only [mkRCandle, Option.some.injEq] at h
    subst h
    rfl

theorem mkRCandle_of_ne_nil (b : ℤ) {l : List Candle} (h : l ≠ []) :
    ∃ c, mkRCandle b l = some c ∧ c.ts = b := by
  cases l with
  | nil => exact absurd rfl h
  | cons u r => exact ⟨_, rfl, rfl⟩

theorem mem_rBuckets {o n : ℤ} {cs : List Candle} {b : ℤ} :
    b ∈ rBuckets o n cs ↔ ∃ c ∈ cs, cBucket o n c = b := by
  rw [rBuckets, mem_sortedKeys]
  exact List.mem_map

theorem resample_map_ts (o n : ℤ) (cs : List Candle) :
    (resample o n cs).map Candle.ts = rBuckets o n cs := by
  apply map_key_filterMap
  intro b hb
  exact mkRCandle_of_ne_nil b (candlesIn_ne_nil (mem_rBuckets.1 hb))

theorem mem_resample {o n : ℤ} {cs : List Candle} {c : Candle} :
    c ∈ resample o n cs ↔
      (∃ u ∈ cs, cBucket o n u = c.ts) ∧
        mkRCandle c.ts (candlesIn o n c.ts cs) = some c := by
  constructor
  · intro h
    obtain ⟨b, hb, hsome⟩ := List.mem_filterMap.1 h
    have hts := mkRCandle_ts hsome
    subst hts
    exact ⟨mem_rBuckets.1 hb, hsome⟩
  · rintro ⟨hb, hsome⟩
    exact List.mem_filterMap.2 ⟨c.ts, mem_rBuckets.2 hb, hsome⟩

/-- C5: a target bucket with no source candle in its span produces no output
row, and a target bucket with at least one source candle produces exactly one
output row: the output timestamps are exactly the non-empty target buckets,
each occurring exactly once, in ascending order. -/
theorem resample_row_per_nonempty_bucket (o n : ℤ) (cs : List Candle) :
    ((resample o n cs).map Candle.ts).Sorted (· < ·) ∧
    (∀ b : ℤ, b ∈ (resample o n cs).map Candle.ts ↔ ∃ c ∈ cs, cBucket o n c = b) ∧
    (∀ b : ℤ, ((resample o n cs).map Candle.ts).count b =
      if ∃ c ∈ cs, cBucket o n c = b then 1 else 0) := by
  refine ⟨?_, fun b => ?_, fun b => ?_⟩
  · rw [resample_map_ts]
    exact sortedKeys_sorted _
  · rw [resample_map_ts]
    exact mem_rBuckets
  · by_cases h : ∃ c ∈ cs, cBucket o n c = b
    · rw [if_pos h]
      exact List.count_eq_one_of_mem
        (by rw [resample_map_ts]; exact (sortedKeys_sorted _).nodup)
        (by rw [resample_map_ts]; exact mem_rBuckets.2 h)
    · rw [if_neg h]
      exact List.count_eq_zero_of_not_mem
        (by rw [resample_map_ts]; exact fun hm => h (mem_rBuckets.1 hm))

/-! ### Claims about the store boundary -/

/-- A stored candle at 00:00:01 (timestamp 1) of day 0. -/
def exStoredCandle : StoredCandle := ⟨"bybit", "X", ⟨1, 100, 100, 100, 100, 1, 1, 0⟩⟩

/-- A store holding only `exStoredCandle`. -/
def exStore : List StoredCandle := [exStoredCandle]

/-- A one-trade day used to drive `updateDay`. -/
def exDayTrades : List Trade := [⟨0, Side.Buy, 1, 100⟩]

/-- C2 counterexample: the store holds a candle inside day 0 (at timestamp 1,
i.e. 00:00:01), so the claimed hypothesis "at least one candle with any
timestamp inside that day exists" is satisfied, yet `updateDay` does not skip
the day: the existence check only matches `datetime == date` (midnight
exactly), finds nothing, and the store changes. -/
theorem updateDay_whole_day_skip_cex :
    (∃ s ∈ exStore, s.exchange = "bybit" ∧ s.symbol = "X" ∧
        0 ≤ s.candle.ts ∧ s.candle.ts < 0 + secondsPerDay) ∧
      updateDay exStore "X" 0 exDayTrades ≠ exStore := by
  constructor
  · exact ⟨exStoredCandle, List.mem_cons_self _ _, rfl, rfl, by decide, by decide⟩
  · have hex : dayExists exStore "X" 0 = false := by decide
    have hagg : aggregate exDayTrades ≠ [] := by
      norm_num [aggregate, buckets, sortedKeys, insertKey, tradesIn, mkCandle, tradeBucket,
        exDayTrades, buySize, sellSize, List.filter_cons, List.filterMap_cons]
    intro h
    simp only [updateDay, hex, Bool.false_eq_true, if_false,
      List.append_right_eq_self, List.map_eq_nil_iff] at h
    exact hagg h

/-- C2 amended: the day is skipped (the store is unchanged) when a stored
candle with the same exchange and symbol exists whose timestamp is exactly the
midnight of the day — not any timestamp inside the day. -/
theorem updateDay_midnight_skip (store : List StoredCandle) (symbol : String) (dayMid : ℤ)
    (trades : List Trade)
    (h : ∃ s ∈ store, s.exchange = "bybit" ∧ s.symbol = symbol ∧ s.candle.ts = dayMid) :
    updateDay store symbol dayMid trades = store := by
  have hex : dayExists store symbol dayMid = true := by
    obtain ⟨s, hs, he, hsym, hts⟩ := h
    rw [dayExists, List.any_eq_true]
    exact ⟨s, hs, by simp [he, hsym, hts]⟩
  simp [updateDay, hex]

/-- A stored candle at exactly midnight of day 0. -/
def exStoredMid : StoredCandle := ⟨"bybit", "X", ⟨0, 100, 100, 100, 100, 1, 1, 0⟩⟩

/-- A store holding only `exStoredMid`. -/
def exStoreMid : List StoredCandle := [exStoredMid]

theorem updateDay_midnight_skip_witness :
    exStoredMid ∈ exStoreMid ∧ exStoredMid.exchange = "bybit" ∧
      exStoredMid.symbol = "X" ∧ exStoredMid.candle.ts = 0 ∧
      updateDay exStoreMid "X" 0 exDayTrades = exStoreMid :=
  ⟨List.mem_cons_self _ _, rfl, rfl, rfl,
    (updateDay_midnight_skip exStoreMid "X" 0 exDayTrades
      ⟨exStoredMid, List.mem_cons_self _ _, rfl, rfl, rfl⟩).trans rfl⟩

/-- C10: the resampler's input range query keeps exactly the stored candles of
the right exchange and symbol with `bdt ≤ ts ≤ edt` — inclusive at both
endpoints; in particular a candle timestamped exactly at the end-date midnight
`edt` is included, and every candle with a later timestamp is excluded. -/
theorem queryRange_inclusive (store : List StoredCandle) (symbol : String) (bdt edt : ℤ)
    (s : StoredCandle) :
    (s ∈ queryRange store symbol bdt edt ↔
      s ∈ store ∧ s.exchange = "bybit" ∧ s.symbol = symbol ∧
        bdt ≤ s.candle.ts ∧ s.candle.ts ≤ edt) ∧
    (s ∈ store → s.exchange = "bybit" → s.symbol = symbol → bdt ≤ s.candle.ts →
      s.candle.ts = edt → s ∈ queryRange store symbol bdt edt) ∧
    (edt < s.candle.ts → s ∉ queryRange store symbol bdt edt) := by
  have hmem : s ∈ queryRange store symbol bdt edt ↔
      s ∈ store ∧ s.exchange = "bybit" ∧ s.symbol = symbol ∧
        bdt ≤ s.candle.ts ∧ s.candle.ts ≤ edt := by
    rw [queryRange, List.mem_filter]
    simp [and_assoc]
  refine ⟨hmem, ?_, ?_⟩
  · intro h1 h2 h3 h4 h5
    exact hmem.2 ⟨h1, h2, h3, h4, le_of_eq h5⟩
  · intro hlt hm
    exact absurd (hmem.1 hm).2.2.2.2 (not_le.2 hlt)

/-- A stored candle at exactly the end-date midnight 86400. -/
def exStoredEnd : StoredCandle := ⟨"bybit", "X", ⟨86400, 100, 100, 100, 100, 1, 1, 0⟩⟩

/-- A stored candle one second after the end-date midnight. -/
def exStoredLater : StoredCandle := ⟨"bybit", "X", ⟨86401, 100, 100, 100, 100, 1, 1, 0⟩⟩

/-- A store holding `exStoredEnd` and `exStoredLater`. -/
def exStoreRange : List StoredCandle := [exStoredEnd, exStoredLater]

theorem queryRange_inclusive_witness :
    exStoredEnd ∈ queryRange exStoreRange "X" 0 86400 ∧
      exStoredLater ∉ queryRange exStoreRange "X" 0 86400 :=
  ⟨(queryRange_inclusive exStoreRange "X" 0 86400 exStoredEnd).2.1
      (List.mem_cons_self _ _) rfl rfl (by decide) rfl,
    (queryRange_inclusive exStoreRange "X" 0 86400 exStoredLater).2.2 (by decide)⟩

/-- C8 counterexample: with interval 0 (non-positive) and a store whose
queried range is non-empty, the `generate` call is not rejected before
processing: the stored-candle range read does happen — the trace of the call
is exactly the range read, refuting "rejected before the stored-candle range
is read". -/
theorem generate_precheck_cex :
    (0 : ℤ) ≤ 0 ∧
      (generateRun exStoreRange "X" 0 86400 0).1 = [Step.rangeRead] ∧
      (generateRun exStoreRange "X" 0 86400 0).2 =
        Except.error "ValueError: invalid frequency" :=
  ⟨le_refl 0, rfl, rfl⟩

/-- C8 amended: a zero or negative interval is never validated before
processing — the stored-candle range is always read first.  When the queried
range is non-empty, the resample step then raises and the call dies without
writing a file; when the queried range is empty, pandas short-circuits the
binning of the empty index and the call completes, writing a header-only CSV. -/
theorem generate_nonpositive_interval_fatal (store : List StoredCandle) (symbol : String)
    (bdt edt n : ℤ) (hn : n ≤ 0) :
    (queryRange store symbol bdt edt ≠ [] →
      (generateRun store symbol bdt edt n).1 = [Step.rangeRead] ∧
      (generateRun store symbol bdt edt n).2 =
        Except.error "ValueError: invalid frequency") ∧
    (queryRange store symbol bdt edt = [] →
      (generateRun store symbol bdt edt n).1 =
        [Step.rangeRead, Step.resampleDone, Step.fileWritten] ∧
      (generateRun store symbol bdt edt n).2 = Except.ok []) := by
  constructor
  · intro hne
    have hsrc : (queryRange store symbol bdt edt).map StoredCandle.candle ≠ [] :=
      fun he => hne (List.map_eq_nil_iff.1 he)
    rw [generateRun]
    rw [if_pos ⟨hn, hsrc⟩]
    exact ⟨rfl, rfl⟩
  · intro he
    rw [generateRun]
    rw [if_neg (fun hc => hc.2 (by rw [he]; rfl))]
    rw [he]
    exact ⟨rfl, rfl⟩

theorem generate_nonpositive_interval_fatal_witness :
    (-5 : ℤ) ≤ 0 ∧
      queryRange exStoreRange "X" 0 86400 ≠ [] ∧
      (generateRun exStoreRange "X" 0 86400 (-5)).1 = [Step.rangeRead] ∧
      (generateRun exStoreRange "X" 0 86400 (-5)).2 =
        Except.error "ValueError: invalid frequency" ∧
      queryRange [] "X" 0 86400 = [] ∧
      (generateRun [] "X" 0 86400 (-5)).1 =
        [Step.rangeRead, Step.resampleDone, Step.fileWritten] ∧
      (generateRun [] "X" 0 86400 (-5)).2 = Except.ok [] := by
  have hne : queryRange exStoreRange "X" 0 86400 ≠ [] := by decide
  have h1 := (generate_nonpositive_interval_fatal exStoreRange "X" 0 86400 (-5)
    (by decide)).1 hne
  have h2 := (generate_nonpositive_interval_fatal [] "X" 0 86400 (-5) (by decide)).2 rfl
  exact ⟨by decide, hne, h1.1, h1.2, rfl, h2.1, h2.2⟩

/-! ### Permutation invariance of the aggregator -/

/-- The order-insensitive fields of a candle: everything except open and
close. -/
def stripOC (c : Candle) : ℤ × ℚ × ℚ × ℚ × ℚ × ℚ :=
  (c.ts, c.high, c.low, c.volume, c.buy_volume, c.sell_volume)

theorem filterMap_map_congr {β γ : Type*} (f f' : ℤ → Option β) (g : β → γ)
    (keys : List ℤ) (h : ∀ b ∈ keys, Option.map g (f b) = Option.map g (f' b)) :
    (keys.filterMap f).map g = (keys.filterMap f').map g := by
  induction keys with
  | nil => rfl
  | cons b r ih =>
    have hb := h b (List.mem_cons_self b r)
    have hr := ih (fun b' hb' => h b' (List.mem_cons_of_mem _ hb'))
    cases hfb : f b with
    | none =>
      cases hfb' : f' b with
      | none =>
        simp only [List.filterMap_cons, hfb, hfb']
        exact hr
      | some v' =>
        rw [hfb, hfb', Option.map_none', Option.map_some'] at hb
        cases hb
    | some v =>
      cases hfb' : f' b with
      | none =>
        rw [hfb, hfb', Option.map_none', Option.map_some'] at hb
        cases hb
      | some v' =>
        rw [hfb, hfb', Option.map_some', Option.map_some', Option.some.injEq] at hb
        simp only [List.filterMap_cons, hfb, hfb', List.map_cons]
        rw [hb, hr]

theorem mkCandle_high_congr {b : ℤ} {g g' : List Trade} (hp : g.Perm g')
    {c c' : Candle} (hc : mkCandle b g = some c) (hc' : mkCandle b g' = some c') :
    c.high = c'.high := by
  apply le_antisymm
  · obtain ⟨x, hx, hxe⟩ := List.mem_map.1 (mkCandle_high_mem hc)
    rw [← hxe]
    exact mkCandle_high_ub hc' x (hp.subset hx)
  · obtain ⟨x, hx, hxe⟩ := List.mem_map.1 (mkCandle_high_mem hc')
    rw [← hxe]
    exact mkCandle_high_ub hc x (hp.symm.subset hx)

theorem mkCandle_low_congr {b : ℤ} {g g' : List Trade} (hp : g.Perm g')
    {c c' : Candle} (hc : mkCandle b g = some c) (hc' : mkCandle b g' = some c') :
    c.low = c'.low := by
  apply le_antisymm
  · obtain ⟨x, hx, hxe⟩ := List.mem_map.1 (mkCandle_low_mem hc')
    rw [← hxe]
    exact mkCandle_low_lb hc x (hp.symm.subset hx)
  · obtain ⟨x, hx, hxe⟩ := List.mem_map.1 (mkCandle_low_mem hc)
    rw [← hxe]
    exact mkCandle_low_lb hc' x (hp.subset hx)

theorem mkCandle_stripOC_congr {b : ℤ} {g g' : List Trade} (hp : g.Perm g')
    {c c' : Candle} (hc : mkCandle b g = some c) (hc' : mkCandle b g' = some c') :
    stripOC c = stripOC c' := by
  have hts : c.ts = c'.ts := by rw [mkCandle_ts hc, mkCandle_ts hc']
  have hv : c.volume = c'.volume := by
    rw [mkCandle_volume hc, mkCandle_volume hc']
    exact (hp.map Trade.size).sum_eq
  have hbv : c.buy_volume = c'.buy_volume := by
    rw [mkCandle_buy hc, mkCandle_buy hc']
    exact (hp.map buySize).sum_eq
  have hsv : c.sell_volume = c'.sell_volume := by
    rw [mkCandle_sell hc, mkCandle_sell hc']
    exact (hp.map sellSize).sum_eq
  rw [stripOC, stripOC, hts, mkCandle_high_congr hp hc hc', mkCandle_low_congr hp hc hc',
    hv, hbv, hsv]

/-- C9: for every permutation of the trade sequence, the tick aggregator
emits the same bucket timestamps without duplicates, and each candle's high,
low, volume, buy_volume and sell_volume are identical across the two runs
(only open and close can depend on the order of trades within a bucket). -/
theorem aggregate_perm_invariant (l l' : List Trade) (h : l.Perm l') :
    ((aggregate l).map Candle.ts).Nodup ∧
      (aggregate l).map stripOC = (aggregate l').map stripOC := by
  have hbuckets : buckets l = buckets l' :=
    sortedKeys_eq_of_mem_iff (fun a => (h.map tradeBucket).mem_iff)
  refine ⟨by rw [aggregate_map_ts]; exact (sortedKeys_sorted _).nodup, ?_⟩
  rw [aggregate, aggregate, ← hbuckets]
  apply filterMap_map_congr
  intro b hb
  have hg : (tradesIn b l).Perm (tradesIn b l') := h.filter _
  have hne : tradesIn b l ≠ [] := tradesIn_ne_nil (mem_buckets.1 hb)
  have hne' : tradesIn b l' ≠ [] := fun he => hne (List.Perm.eq_nil (he ▸ hg))
  obtain ⟨c, hc, -⟩ := mkCandle_of_ne_nil b hne
  obtain ⟨c', hc', -⟩ := mkCandle_of_ne_nil b hne'
  rw [hc, hc', Option.map_some', Option.map_some', mkCandle_stripOC_congr hg hc hc']

theorem aggregate_perm_invariant_witness :
    ((aggregate exTrades).map Candle.ts).Nodup ∧
      (aggregate exTrades).map stripOC = (aggregate exTrades.reverse).map stripOC :=
  aggregate_perm_invariant exTrades exTrades.reverse (List.reverse_perm exTrades).symm

/-! ### Resampling at the source interval -/

theorem bucketZ_one (s : ℤ) : bucketZ s 1 = s := by
  rw [bucketZ, Int.emod_one, sub_zero]

theorem cBucket_one (o : ℤ) (c : Candle) : cBucket o 1 c = c.ts := by
  rw [cBucket, bucketZ_one]
  ring

theorem sortedKeys_eq_self {l : List ℤ} (h : l.Sorted (· < ·)) : sortedKeys l = l :=
  sorted_lt_eq_of_mem_iff (sortedKeys_sorted l) h (fun a => mem_sortedKeys)

theorem filter_key_eq_singleton {α : Type*} [DecidableEq α] (key : α → ℤ) {l : List α}
    (h : (l.map key).Nodup) {x : α} (hx : x ∈ l) :
    l.filter (fun u => key u == key x) = [x] := by
  induction l with
  | nil => cases hx
  | cons a r ih =>
    rw [List.map_cons, List.nodup_cons] at h
    obtain ⟨ha, hr⟩ := h
    rcases List.mem_cons.1 hx with rfl | hx'
    · rw [List.filter_cons_of_pos (by simp)]
      rw [List.filter_eq_nil_iff.2]
      intro u hu hk
      exact ha (List.mem_map.2 ⟨u, hu, (beq_iff_eq.1 hk).symm ▸ rfl⟩)
    · rw [List.filter_cons_of_neg, ih hr hx']
      simp only [beq_iff_eq]
      intro he
      exact ha (List.mem_map.2 ⟨x, hx', he.symm⟩)

theorem filterMap_some_self {α : Type*} {f : α → Option α} {l : List α}
    (h : ∀ a ∈ l, f a = some a) : l.filterMap f = l := by
  induction l with
  | nil => rfl
  | cons a r ih =>
    rw [List.filterMap_cons, h a (List.mem_cons_self a r),
      ih (fun a' ha' => h a' (List.mem_cons_of_mem _ ha'))]

theorem mkRCandle_singleton (c : Candle) : mkRCandle c.ts [c] = some c := by
  simp [mkRCandle]

theorem resample_one_eq_self {o : ℤ} {cs : List Candle}
    (h : (cs.map Candle.ts).Sorted (· < ·)) : resample o 1 cs = cs := by
  have hkeys : cs.map (cBucket o 1) = cs.map Candle.ts :=
    List.map_congr_left (fun c _ => cBucket_one o c)
  have hnodup : (cs.map Candle.ts).Nodup := h.nodup
  rw [resample, rBuckets, hkeys, sortedKeys_eq_self h, List.filterMap_map]
  apply filterMap_some_self
  intro c hc
  have hgroup : candlesIn o 1 c.ts cs = [c] := by
    have : candlesIn o 1 c.ts cs = cs.filter (fun u => u.ts == c.ts) := by
      rw [candlesIn]
      apply List.filter_congr
      intro u _
      rw [cBucket_one]
    rw [this, filter_key_eq_singleton Candle.ts hnodup hc]
  rw [Function.comp_apply, hgroup, mkRCandle_singleton]

/-- C6: resampling a strictly ascending sequence of stored 1-second candles to
a 1-second target interval returns the input unchanged, for every bin origin
and in particular for the start-of-day origin that `generate` uses. -/
theorem resample_one_second_identity (cs : List Candle)
    (h : (cs.map Candle.ts).Sorted (· < ·)) :
    (∀ o : ℤ, resample o 1 cs = cs) ∧ resampleRun 1 cs = cs := by
  refine ⟨fun o => resample_one_eq_self h, ?_⟩
  cases cs with
  | nil => rfl
  | cons c r => exact resample_one_eq_self h

/-- The two candles that `aggregate exTrades` produces. -/
def exCandles : List Candle :=
  [⟨0, 100, 101, 100, 101, 3, 1, 2⟩, ⟨1, 102, 102, 102, 102, 1, 1, 0⟩]

theorem resample_one_second_identity_witness :
    (exCandles.map Candle.ts).Sorted (· < ·) ∧
      resample 0 1 exCandles = exCandles ∧ resampleRun 1 exCandles = exCandles := by
  have hs : (exCandles.map Candle.ts).Sorted (· < ·) := by
    simp [exCandles, List.sorted_cons]
  exact ⟨hs, (resample_one_second_identity exCandles hs).1 0,
    (resample_one_second_identity exCandles hs).2⟩

/-! ### Bucket arithmetic -/

theorem bucketZ_eq_mul_ediv (s n : ℤ) : bucketZ s n = n * (s / n) := by
  rw [bucketZ, Int.emod_def]
  ring

theorem bucketZ_dvd (s n : ℤ) : n ∣ bucketZ s n :=
  ⟨s / n, bucketZ_eq_mul_ediv s n⟩

theorem bucketZ_le (s : ℤ) {n : ℤ} (hn : 0 < n) : bucketZ s n ≤ s :=
  sub_le_self s (Int.emod_nonneg s (ne_of_gt hn))

theorem lt_bucketZ_add (s : ℤ) {n : ℤ} (hn : 0 < n) : s < bucketZ s n + n := by
  have := Int.emod_lt_of_pos s hn
  rw [bucketZ]
  omega

theorem bucketZ_eq_of {m s n : ℤ} (hn : 0 < n) (hd : n ∣ m) (h1 : m ≤ s)
    (h2 : s < m + n) : bucketZ s n = m := by
  obtain ⟨q, rfl⟩ := hd
  have hmod : s % n = s - n * q := by
    have h0 : 0 ≤ s - n * q := by omega
    have h1' : s - n * q < n := by omega
    calc s % n = (s - n * q + n * q) % n := by ring_nf
    _ = (s - n * q) % n := by rw [Int.add_mul_emod_self_left]
    _ = s - n * q := Int.emod_eq_of_lt h0 h1'
  rw [bucketZ, hmod]
  ring

theorem bucketZ_le_of_dvd_le {m s n : ℤ} (hn : 0 < n) (hd : n ∣ m) (h : m ≤ s) :
    m ≤ bucketZ s n := by
  rw [bucketZ_eq_mul_ediv]
  calc m = m / n * n := (Int.ediv_mul_cancel hd).symm
  _ ≤ s / n * n := by
      have := Int.ediv_le_ediv hn h
      exact mul_le_mul_of_nonneg_right this (le_of_lt hn)
  _ = n * (s / n) := by ring

theorem bucketZ_comp {x y : ℤ} (hx : 0 < x) (hy : 0 < y) (hd : x ∣ y) (s : ℤ) :
    bucketZ (bucketZ s x) y = bucketZ s y := by
  apply bucketZ_eq_of hy (bucketZ_dvd s y)
  · exact bucketZ_le_of_dvd_le hx (dvd_trans hd (bucketZ_dvd s y)) (bucketZ_le s hy)
  · exact lt_of_le_of_lt (bucketZ_le s hx) (lt_bucketZ_add s hy)

theorem bucketZ_mono {n : ℤ} (hn : 0 < n) {s s' : ℤ} (h : s ≤ s') :
    bucketZ s n ≤ bucketZ s' n := by
  rw [bucketZ_eq_mul_ediv, bucketZ_eq_mul_ediv]
  exact mul_le_mul_of_nonneg_left (Int.ediv_le_ediv hn h) (le_of_lt hn)

theorem cBucket_comp {o x y : ℤ} (hx : 0 < x) (hy : 0 < y) (hd : x ∣ y) (c : Candle) :
    o + bucketZ (cBucket o x c - o) y = cBucket o y c := by
  rw [cBucket, cBucket, add_sub_cancel_left, bucketZ_comp hx hy hd]

theorem cBucket_mono {o n : ℤ} (hn : 0 < n) {c c' : Candle} (h : c.ts ≤ c'.ts) :
    cBucket o n c ≤ cBucket o n c' := by
  rw [cBucket, cBucket]
  exact add_le_add_left (bucketZ_mono hn (by omega)) o

/-! ### The resample aggregation as a semigroup fold -/

/-- The aggregated values of one resampled row, without the bin label. -/
structure OHLCV where
  open_ : ℚ
  high : ℚ
  low : ℚ
  close : ℚ
  volume : ℚ
  buy_volume : ℚ
  sell_volume : ℚ
deriving DecidableEq

/-- Forget the bin label of a candle. -/
def ohlcv (c : Candle) : OHLCV :=
  ⟨c.open_, c.high, c.low, c.close, c.volume, c.buy_volume, c.sell_volume⟩

/-- Attach a bin label to aggregated values. -/
def toCandle (b : ℤ) (v : OHLCV) : Candle :=
  ⟨b, v.open_, v.high, v.low, v.close, v.volume, v.buy_volume, v.sell_volume⟩

/-- Merge the aggregates of two adjacent groups: first open, max high, min low,
last close, summed volumes. -/
def merge2 (a c : OHLCV) : OHLCV :=
  ⟨a.open_, max a.high c.high, min a.low c.low, c.close, a.volume + c.volume,
    a.buy_volume + c.buy_volume, a.sell_volume + c.sell_volume⟩

/-- Aggregate a group of rows, `none` for the empty group. -/
def combineList : List OHLCV → Option OHLCV
  | [] => none
  | v :: r => some (r.foldl merge2 v)

theorem ohlcv_toCandle (b : ℤ) (v : OHLCV) : ohlcv (toCandle b v) = v := rfl

theorem merge2_assoc (a c d : OHLCV) : merge2 (merge2 a c) d = merge2 a (merge2 c d) := by
  simp [merge2, max_assoc, min_assoc, add_assoc]

theorem foldl_merge2_assoc (A : OHLCV) (w : OHLCV) (r : List OHLCV) :
    r.foldl merge2 (merge2 A w) = merge2 A (r.foldl merge2 w) := by
  induction r generalizing w with
  | nil => rfl
  | cons u r' ih =>
    rw [List.foldl_cons, List.foldl_cons, merge2_assoc, ih]

theorem combineList_eq_none {L : List OHLCV} : combineList L = none ↔ L = [] := by
  cases L <;> simp [combineList]

theorem combineList_append (L1 L2 : List OHLCV) :
    combineList (L1 ++ L2) =
      match combineList L1, combineList L2 with
      | none, o2 => o2
      | some v1, none => some v1
      | some v1, some v2 => some (merge2 v1 v2) := by
  cases L1 with
  | nil =>
    rw [List.nil_append]
    cases h2 : combineList L2 <;> rfl
  | cons v r =>
    cases L2 with
    | nil =>
      simp [combineList]
    | cons w r2 =>
      show combineList (v :: (r ++ w :: r2)) = some (merge2 (r.foldl merge2 v) (r2.foldl merge2 w))
      rw [combineList, List.foldl_append, List.foldl_cons, foldl_merge2_assoc]

theorem fm_open (r : List Candle) (v : OHLCV) :
    (r.foldl (fun a u => merge2 a (ohlcv u)) v).open_ = v.open_ := by
  induction r generalizing v with
  | nil => rfl
  | cons u r' ih => rw [List.foldl_cons, ih]; rfl

theorem fm_high (r : List Candle) (v : OHLCV) :
    (r.foldl (fun a u => merge2 a (ohlcv u)) v).high =
      r.foldl (fun a u => max a u.high) v.high := by
  induction r generalizing v with
  | nil => rfl
  | cons u r' ih => rw [List.foldl_cons, List.foldl_cons, ih]; rfl

theorem fm_low (r : List Candle) (v : OHLCV) :
    (r.foldl (fun a u => merge2 a (ohlcv u)) v).low =
      r.foldl (fun a u => min a u.low) v.low := by
  induction r generalizing v with
  | nil => rfl
  | cons u r' ih => rw [List.foldl_cons, List.foldl_cons, ih]; rfl

theorem fm_close (r : List Candle) (v : OHLCV) :
    (r.foldl (fun a u => merge2 a (ohlcv u)) v).close =
      (r.map Candle.close).getLastD v.close := by
  induction r generalizing v with
  | nil => rfl
  | cons u r' ih =>
    rw [List.foldl_cons, ih, List.map_cons, List.getLastD_cons]
    rfl

theorem fm_volume (r : List Candle) (v : OHLCV) :
    (r.foldl (fun a u => merge2 a (ohlcv u)) v).volume =
      v.volume + (r.map Candle.volume).sum := by
  induction r generalizing v with
  | nil => simp
  | cons u r' ih =>
    rw [List.foldl_cons, ih, List.map_cons, List.sum_cons]
    show v.volume + u.volume + _ = _
    ring

theorem fm_buy (r : List Candle) (v : OHLCV) :
    (r.foldl (fun a u => merge2 a (ohlcv u)) v).buy_volume =
      v.buy_volume + (r.map Candle.buy_volume).sum := by
  induction r generalizing v with
  | nil => simp
  | cons u r' ih =>
    rw [List.foldl_cons, ih, List.map_cons, List.sum_cons]
    show v.buy_volume + u.buy_volume + _ = _
    ring

theorem fm_sell (r : List Candle) (v : OHLCV) :
    (r.foldl (fun a u => merge2 a (ohlcv u)) v).sell_volume =
      v.sell_volume + (r.map Candle.sell_volume).sum := by
  induction r generalizing v with
  | nil => simp
  | cons u r' ih =>
    rw [List.foldl_cons, ih, List.map_cons, List.sum_cons]
    show v.sell_volume + u.sell_volume + _ = _
    ring

theorem getLastD_close_map (r : List Candle) (c : Candle) :
    (List.getLastD r c).close = (r.map Candle.close).getLastD c.close := by
  induction r generalizing c with
  | nil => rfl
  | cons u r' ih =>
    rw [List.getLastD_cons, List.map_cons, List.getLastD_cons, ih]

theorem mkRCandle_eq_combine (b : ℤ) (l : List Candle) :
    mkRCandle b l = (combineList (l.map ohlcv)).map (toCandle b) := by
  cases l with
  | nil => rfl
  | cons c r =>
    rw [List.map_cons, combineList, Option.map_some', List.foldl_map, mkRCandle]
    congr 1
    simp only [toCandle, Candle.mk.injEq]
    refine ⟨trivial, (fm_open r (ohlcv c)).symm, (fm_high r (ohlcv c)).symm,
      (fm_low r (ohlcv c)).symm, ?_, ?_, ?_, ?_⟩
    · rw [fm_close, getLastD_close_map]
      rfl
    · rw [fm_volume, List.map_cons, List.sum_cons]
      rfl
    · rw [fm_buy, List.map_cons, List.sum_cons]
      rfl
    · rw [fm_sell, List.map_cons, List.sum_cons]
      rfl

theorem combineList_parts (keys : List ℤ) (grpV : ℤ → List OHLCV) (v : ℤ → OHLCV)
    (hv : ∀ k ∈ keys, combineList (grpV k) = some (v k)) :
    combineList ((keys.map grpV).flatten) = combineList (keys.map v) := by
  induction keys with
  | nil => rfl
  | cons k rest ih =>
    have hk := hv k (List.mem_cons_self k rest)
    have hrest := ih (fun k' hk' => hv k' (List.mem_cons_of_mem _ hk'))
    rw [List.map_cons, List.flatten_cons, combineList_append, hk, hrest, List.map_cons]
    cases hmv : combineList (rest.map v) with
    | none =>
      rw [combineList_eq_none.1 hmv]
      rfl
    | some w =>
      cases hmv' : rest.map v with
      | nil =>
        rw [hmv'] at hmv
        cases hmv
      | cons w0 r0 =>
        rw [hmv'] at hmv
        rw [combineList, Option.some.injEq] at hmv
        rw [combineList, List.foldl_cons, foldl_merge2_assoc, hmv]

theorem flatMap_congr_left {α β : Type*} {keys : List α} {f g : α → List β}
    (h : ∀ b ∈ keys, f b = g b) : keys.flatMap f = keys.flatMap g := by
  induction keys with
  | nil => rfl
  | cons b r ih =>
    rw [List.flatMap_cons, List.flatMap_cons, h b (List.mem_cons_self b r),
      ih (fun b' hb' => h b' (List.mem_cons_of_mem _ hb'))]

theorem dropWhile_key_gt {α : Type*} (key : α → ℤ) (b0 : ℤ) :
    ∀ l : List α, (l.map key).Sorted (· ≤ ·) → (∀ u ∈ l, b0 ≤ key u) →
      ∀ u ∈ l.dropWhile (fun u => key u == b0), b0 < key u := by
  intro l
  induction l with
  | nil => intro _ _ u hu; cases hu
  | cons a t ih =>
    intro hs hall
    rw [List.map_cons, List.sorted_cons] at hs
    by_cases ha : key a = b0
    · rw [List.dropWhile_cons_of_pos (by simp [ha])]
      exact ih hs.2 (fun u hu => hall u (List.mem_cons_of_mem a hu))
    · rw [List.dropWhile_cons_of_neg (by simp [ha])]
      have ha' : b0 < key a :=
        lt_of_le_of_ne (hall a (List.mem_cons_self a t)) (fun he => ha he.symm)
      intro u hu
      rcases List.mem_cons.1 hu with rfl | hu'
      · exact ha'
      · exact lt_of_lt_of_le ha' (hs.1 (key u) (List.mem_map.2 ⟨u, hu', rfl⟩))

/-- A list whose keys are non-decreasing is the concatenation of its key
groups, taken in ascending key order. -/
theorem sorted_group_decomp {α : Type*} (key : α → ℤ) :
    ∀ (n : ℕ) (l : List α), l.length ≤ n → (l.map key).Sorted (· ≤ ·) →
      (sortedKeys (l.map key)).flatMap (fun b => l.filter (fun u => key u == b)) = l := by
  intro n
  induction n with
  | zero =>
    intro l hl _
    rw [List.length_eq_zero.1 (Nat.le_zero.1 hl)]
    rfl
  | succ n ih =>
    intro l hl hs
    cases l with
    | nil => rfl
    | cons a t =>
      obtain ⟨l1, l2, hl1, hl2, hsplit⟩ :
          ∃ l1 l2, l1 = (a :: t).takeWhile (fun u => key u == key a) ∧
            l2 = (a :: t).dropWhile (fun u => key u == key a) ∧ l1 ++ l2 = a :: t :=
        ⟨_, _, rfl, rfl, List.takeWhile_append_dropWhile _ _⟩
      have hl1cons : l1 = a :: t.takeWhile (fun u => key u == key a) := by
        rw [hl1, List.takeWhile_cons_of_pos (by simp)]
      have hall : ∀ u ∈ a :: t, key a ≤ key u := by
        intro u hu
        rcases List.mem_cons.1 hu with rfl | hu'
        · exact le_refl _
        · rw [List.map_cons, List.sorted_cons] at hs
          exact hs.1 (key u) (List.mem_map.2 ⟨u, hu', rfl⟩)
      have hl1key : ∀ u ∈ l1, key u = key a := by
        intro u hu
        rw [hl1] at hu
        have h' := List.mem_takeWhile_imp hu
        simpa using h'
      have hl2sub : l2.Sublist (a :: t) := by
        rw [hl2]
        exact List.dropWhile_sublist _
      have hl2sorted : (l2.map key).Sorted (· ≤ ·) :=
        List.Pairwise.sublist (hl2sub.map key) hs
      have hl2gt : ∀ u ∈ l2, key a < key u := by
        rw [hl2]
        exact dropWhile_key_gt key (key a) (a :: t) hs hall
      have hcons : (a :: t) = l1 ++ l2 := hsplit.symm
      have hfilter_b0 : (a :: t).filter (fun u => key u == key a) = l1 := by
        rw [hcons, List.filter_append, List.filter_eq_self.2 (fun u hu => by simp [hl1key u hu]),
          List.filter_eq_nil_iff.2 (fun u hu => by simp [ne_of_gt (hl2gt u hu)]),
          List.append_nil]
      have hfilter_other : ∀ b, key a < b →
          (a :: t).filter (fun u => key u == b) = l2.filter (fun u => key u == b) := by
        intro b hb
        rw [hcons, List.filter_append, List.filter_eq_nil_iff.2
          (fun u hu => by simp only [beq_iff_eq, hl1key u hu]; omega), List.nil_append]
      have hkeys : sortedKeys ((a :: t).map key) = key a :: sortedKeys (l2.map key) := by
        apply sorted_lt_eq_of_mem_iff (sortedKeys_sorted _)
        · rw [List.sorted_cons]
          refine ⟨?_, sortedKeys_sorted _⟩
          intro z hz
          obtain ⟨u, hu, rfl⟩ := List.mem_map.1 (mem_sortedKeys.1 hz)
          exact hl2gt u hu
        · intro z
          rw [mem_sortedKeys, List.mem_cons, mem_sortedKeys]
          constructor
          · intro hz
            obtain ⟨u, hu, rfl⟩ := List.mem_map.1 hz
            rw [hcons] at hu
            rcases List.mem_append.1 hu with hu1 | hu2
            · exact Or.inl (hl1key u hu1)
            · exact Or.inr (List.mem_map.2 ⟨u, hu2, rfl⟩)
          · intro hz
            rcases hz with rfl | hz2
            · exact List.mem_map.2 ⟨a, List.mem_cons_self a t, rfl⟩
            · obtain ⟨u, hu, rfl⟩ := List.mem_map.1 hz2
              exact List.mem_map.2 ⟨u, hl2sub.subset hu, rfl⟩
      have hlen2 : l2.length ≤ n := by
        have h1 : l1.length + l2.length = t.length + 1 := by
          rw [← List.length_append, hsplit]
          rfl
        have h2 : 1 ≤ l1.length := by rw [hl1cons]; simp
        have h3 : t.length + 1 ≤ n + 1 := hl
        omega
      rw [hkeys, List.flatMap_cons, hfilter_b0,
        flatMap_congr_left (fun b hb => hfilter_other b (by
          obtain ⟨u, hu, rfl⟩ := List.mem_map.1 (mem_sortedKeys.1 hb)
          exact hl2gt u hu)),
        ih l2 hlen2 hl2sorted]
      exact hsplit

/-! ### Composition of resampling -/

/-- The target bucket as a function of the source bin label. -/
def gBucket (o y bx : ℤ) : ℤ := o + bucketZ (bx - o) y

theorem cBucket_eq_gBucket (o y : ℤ) (c : Candle) : cBucket o y c = gBucket o y c.ts := rfl

theorem gBucket_cBucket {o x y : ℤ} (hx : 0 < x) (hy : 0 < y) (hd : x ∣ y) (c : Candle) :
    gBucket o y (cBucket o x c) = cBucket o y c :=
  cBucket_comp hx hy hd c

theorem filter_filterMap_key (keys : List ℤ) (f : ℤ → Option Candle) (q : ℤ → Bool)
    (h : ∀ k ∈ keys, ∃ c, f k = some c ∧ c.ts = k) :
    (keys.filterMap f).filter (fun c => q c.ts) = (keys.filter q).filterMap f := by
  induction keys with
  | nil => rfl
  | cons k r ih =>
    obtain ⟨c, hc, hts⟩ := h k (List.mem_cons_self k r)
    have hr := ih (fun k' hk' => h k' (List.mem_cons_of_mem _ hk'))
    by_cases hq : q k = true
    · rw [List.filterMap_cons, hc, List.filter_cons_of_pos (by rw [hts]; exact hq),
        List.filter_cons_of_pos hq, List.filterMap_cons, hc, hr]
    · rw [List.filterMap_cons, hc, List.filter_cons_of_neg (by rw [hts]; exact hq),
        List.filter_cons_of_neg hq, hr]

theorem map_ohlcv_filterMap (keys : List ℤ) (f : ℤ → Option Candle) (v : ℤ → OHLCV)
    (h : ∀ k ∈ keys, ∃ c, f k = some c ∧ ohlcv c = v k) :
    (keys.filterMap f).map ohlcv = keys.map v := by
  induction keys with
  | nil => rfl
  | cons k r ih =>
    obtain ⟨c, hc, hv⟩ := h k (List.mem_cons_self k r)
    rw [List.filterMap_cons, hc, List.map_cons, List.map_cons, hv,
      ih (fun k' hk' => h k' (List.mem_cons_of_mem _ hk'))]

theorem candlesIn_y_decomp {o x y : ℤ} (hx : 0 < x) (hy : 0 < y) (hd : x ∣ y)
    {cs : List Candle} (hs : (cs.map Candle.ts).Sorted (· ≤ ·)) (b : ℤ) :
    candlesIn o y b cs =
      ((rBuckets o x cs).filter (fun bx => gBucket o y bx == b)).flatMap
        (fun bx => candlesIn o x bx cs) := by
  have hpair : List.Pairwise (fun u v : Candle => u.ts ≤ v.ts) cs := List.pairwise_map.1 hs
  have hl' : List.Pairwise (fun u v : Candle => u.ts ≤ v.ts) (candlesIn o y b cs) :=
    hpair.filter _
  have hsorted' : ((candlesIn o y b cs).map (cBucket o x)).Sorted (· ≤ ·) :=
    List.pairwise_map.2 (hl'.imp (fun h => cBucket_mono hx h))
  have hdecomp := sorted_group_decomp (cBucket o x) (candlesIn o y b cs).length
    (candlesIn o y b cs) le_rfl hsorted'
  have hkeys : sortedKeys ((candlesIn o y b cs).map (cBucket o x)) =
      (rBuckets o x cs).filter (fun bx => gBucket o y bx == b) := by
    apply sorted_lt_eq_of_mem_iff (sortedKeys_sorted _)
    · exact (sortedKeys_sorted _).filter _
    · intro z
      rw [mem_sortedKeys, List.mem_filter]
      constructor
      · intro hz
        obtain ⟨u, hu, rfl⟩ := List.mem_map.1 hz
        rw [candlesIn, List.mem_filter] at hu
        obtain ⟨hu1, hu2⟩ := hu
        have hb : cBucket o y u = b := by simpa using hu2
        refine ⟨mem_rBuckets.2 ⟨u, hu1, rfl⟩, ?_⟩
        rw [gBucket_cBucket hx hy hd, hb]
        exact beq_self_eq_true b
      · rintro ⟨hz1, hz2⟩
        obtain ⟨u, hu, rfl⟩ := mem_rBuckets.1 hz1
        refine List.mem_map.2 ⟨u, ?_, rfl⟩
        rw [candlesIn, List.mem_filter]
        refine ⟨hu, ?_⟩
        rw [beq_iff_eq, ← gBucket_cBucket hx hy hd u]
        exact beq_iff_eq.1 hz2
  rw [← hdecomp, hkeys]
  apply flatMap_congr_left
  intro bx hbx
  rw [List.mem_filter] at hbx
  obtain ⟨hbx1, hbx2⟩ := hbx
  have hgb : gBucket o y bx = b := beq_iff_eq.1 hbx2
  rw [candlesIn, candlesIn, List.filter_filter]
  apply List.filter_congr
  intro u hu
  by_cases hcx : cBucket o x u = bx
  · have hcy : cBucket o y u = b :=
      calc cBucket o y u = gBucket o y (cBucket o x u) := (gBucket_cBucket hx hy hd u).symm
        _ = gBucket o y bx := by rw [hcx]
        _ = b := hgb
    simp [hcx, hcy]
  · simp [hcx]

/-- C7: resampling the source candles to interval x and then resampling that
result to interval y, where y is a positive multiple of x, equals resampling
the original source directly to interval y, for any common bin origin and any
source sequence read in non-decreasing timestamp order.  No gap condition is
needed. -/
theorem resample_compose (o x y : ℤ) (cs : List Candle) (hx : 0 < x) (hy : 0 < y)
    (hd : x ∣ y) (hs : (cs.map Candle.ts).Sorted (· ≤ ·)) :
    resample o y (resample o x cs) = resample o y cs := by
  have hne : ∀ bx ∈ rBuckets o x cs, candlesIn o x bx cs ≠ [] :=
    fun bx hbx => candlesIn_ne_nil (mem_rBuckets.1 hbx)
  have hfsome : ∀ bx ∈ rBuckets o x cs,
      ∃ c, mkRCandle bx (candlesIn o x bx cs) = some c ∧ c.ts = bx :=
    fun bx hbx => mkRCandle_of_ne_nil bx (hne bx hbx)
  have hbuckets : rBuckets o y (resample o x cs) = rBuckets o y cs := by
    rw [rBuckets, rBuckets]
    apply sortedKeys_eq_of_mem_iff
    intro z
    constructor
    · intro hz
      obtain ⟨c', hc', rfl⟩ := List.mem_map.1 hz
      obtain ⟨hbmem, -⟩ := mem_resample.1 hc'
      obtain ⟨u, hu, hub⟩ := hbmem
      refine List.mem_map.2 ⟨u, hu, ?_⟩
      rw [cBucket_eq_gBucket o y c', ← hub, gBucket_cBucket hx hy hd]
    · intro hz
      obtain ⟨u, hu, rfl⟩ := List.mem_map.1 hz
      obtain ⟨c, hcsome, hcts⟩ := hfsome (cBucket o x u) (mem_rBuckets.2 ⟨u, hu, rfl⟩)
      have hcmem : c ∈ resample o x cs := by
        apply mem_resample.2
        refine ⟨⟨u, hu, hcts.symm⟩, ?_⟩
        rw [hcts]
        exact hcsome
      refine List.mem_map.2 ⟨c, hcmem, ?_⟩
      rw [cBucket_eq_gBucket o y c, hcts, gBucket_cBucket hx hy hd]
  conv_lhs => rw [resample]
  conv_rhs => rw [resample]
  rw [hbuckets]
  apply List.filterMap_congr
  intro b hb
  have hIgroup : candlesIn o y b (resample o x cs) =
      ((rBuckets o x cs).filter (fun bx => gBucket o y bx == b)).filterMap
        (fun bx => mkRCandle bx (candlesIn o x bx cs)) := by
    rw [candlesIn, resample]
    exact filter_filterMap_key _ _ (fun z => gBucket o y z == b) hfsome
  rw [hIgroup, candlesIn_y_decomp hx hy hd hs b, mkRCandle_eq_combine, mkRCandle_eq_combine]
  congr 1
  have hsub : ∀ bx ∈ (rBuckets o x cs).filter (fun bx => gBucket o y bx == b),
      bx ∈ rBuckets o x cs := fun bx hbx => (List.mem_filter.1 hbx).1
  have hvv : ∀ bx ∈ (rBuckets o x cs).filter (fun bx => gBucket o y bx == b),
      combineList ((candlesIn o x bx cs).map ohlcv) =
        some ((combineList ((candlesIn o x bx cs).map ohlcv)).getD ⟨0, 0, 0, 0, 0, 0, 0⟩) := by
    intro bx hbx
    cases hcl : combineList ((candlesIn o x bx cs).map ohlcv) with
    | none =>
      rw [combineList_eq_none] at hcl
      exact absurd (List.map_eq_nil_iff.1 hcl) (hne bx (hsub bx hbx))
    | some w => rfl
  have hLHS : (((rBuckets o x cs).filter (fun bx => gBucket o y bx == b)).filterMap
        (fun bx => mkRCandle bx (candlesIn o x bx cs))).map ohlcv =
      ((rBuckets o x cs).filter (fun bx => gBucket o y bx == b)).map
        (fun bx => (combineList ((candlesIn o x bx cs).map ohlcv)).getD
          ⟨0, 0, 0, 0, 0, 0, 0⟩) := by
    apply map_ohlcv_filterMap
    intro k hk
    refine ⟨toCandle k ((combineList ((candlesIn o x k cs).map ohlcv)).getD
      ⟨0, 0, 0, 0, 0, 0, 0⟩), ?_, rfl⟩
    rw [mkRCandle_eq_combine, hvv k hk, Option.map_some', Option.getD_some]
  have hRHS : (((rBuckets o x cs).filter (fun bx => gBucket o y bx == b)).flatMap
        (fun bx => candlesIn o x bx cs)).map ohlcv =
      (((rBuckets o x cs).filter (fun bx => gBucket o y bx == b)).map
        (fun bx => (candlesIn o x bx cs).map ohlcv)).flatten := by
    rw [List.flatMap_def, List.map_flatten, List.map_map]
    rfl
  rw [hLHS, hRHS]
  exact (combineList_parts _ _ _ hvv).symm

theorem resample_compose_witness :
    (0 : ℤ) < 1 ∧ (0 : ℤ) < 2 ∧ (1 : ℤ) ∣ 2 ∧
      (exCandles.map Candle.ts).Sorted (· ≤ ·) ∧
      resample 0 2 (resample 0 1 exCandles) = resample 0 2 exCandles := by
  have hs : (exCandles.map Candle.ts).Sorted (· ≤ ·) := by
    simp [exCandles, List.sorted_cons]
  exact ⟨by decide, by decide, by decide, hs,
    resample_compose 0 1 2 exCandles (by decide) (by decide) (by decide) hs⟩

end Tamagoyaki
